import Mathlib

/-!
Verification of the bitcask key-value store (HDT3213/bitcask).

This file is a shallow embedding of the Rust sources:
  * `src/utils/varint.rs`   — varint codec
  * `src/storage/segment.rs`— segment file format, append, iterator, CRC config
  * `src/storage/directory.rs` — directory (active/immutable segments, rotation)
  * `src/database/index.rs` / `database.rs` / `merge.rs` — index, facade, merge

Bytes are modelled as `Nat` (values < 256 in all uses); machine integers are
`Nat` with explicit `% 2 ^ 64` / `% 2 ^ 16` where u64/u16 truncation can occur.
File contents are `List Nat`.  Fallible operations return `Option` / `Except`.
-/

namespace Bitcask

/-! ### Varint codec — `src/utils/varint.rs`

`encode_varint_to_vec` is the `while v > 0` loop (plus the zero special case);
`decode_varint` models the stream decoder over a finite byte list where the
reader's one-byte buffer retains its previous content at end of input (a
`read` returning 0 bytes leaves `buf` unchanged); a result of `none` means
the source loop never returns normally (it spins forever on the stale byte,
whose high bit is set).  `decode_varint_from_mmap` models the slice decoder,
where `none` is the out-of-bounds index panic of `slice[*i]`. -/

/-- The `while v > 0` loop of `encode_varint_to_vec`.  `fuel` only bounds the
recursion depth (the loop runs `v.size`-in-base-128 times, which any
`fuel` with `v < 128 ^ fuel` covers); it is not part of the source. -/
def encode_varint_go : Nat → Nat → List Nat
  | 0, _ => []
  | fuel + 1, v =>
    if v = 0 then []
    else
      (if v >>> 7 > 0 then (v &&& 0x7f) ||| 0x80 else v &&& 0x7f) ::
        encode_varint_go fuel (v >>> 7)

def encode_varint_to_vec (v : Nat) : List Nat :=
  if v = 0 then [0] else encode_varint_go (v + 1) v

def decode_varint_go : List Nat → Nat → Nat → Nat → Nat → Option (Nat × Nat)
  | [], result, shift, read, stale =>
      if stale &&& 0x80 == 0 then
        some (result ||| (((stale &&& 0x7f) <<< shift) % 2 ^ 64), read)
      else none
  | b :: rest, result, shift, read, _ =>
      let result' := result ||| (((b &&& 0x7f) <<< shift) % 2 ^ 64)
      if b &&& 0x80 == 0 then some (result', read + 1)
      else decode_varint_go rest result' (shift + 7) (read + 1) b

def decode_varint (l : List Nat) : Option (Nat × Nat) :=
  decode_varint_go l 0 0 0 0

/-- The slice-decoder loop.  `none` stands for the out-of-bounds panic of
`slice[*i]`; the fuel `slice.length - i + 1` always outlasts the loop, which
either finds a terminator, or reaches the end of the slice and panics. -/
def decode_varint_from_mmap_go (slice : List Nat) :
    Nat → Nat → Nat → Nat → Option (Nat × Nat)
  | 0, _, _, _ => none
  | fuel + 1, i, result, shift =>
    match slice[i]? with
    | none => none
    | some byte =>
      let result' := result ||| (((byte &&& 0x7f) <<< shift) % 2 ^ 64)
      if byte &&& 0x80 == 0 then some (result', i + 1)
      else decode_varint_from_mmap_go slice fuel (i + 1) result' (shift + 7)

def decode_varint_from_mmap (slice : List Nat) (i : Nat) : Option (Nat × Nat) :=
  decode_varint_from_mmap_go slice (slice.length - i + 1) i 0 0

/-! ### CRC — `CRC_CONFIG` in `src/storage/segment.rs`

CRC-16, polynomial 0x8005, init 0xFFFF, refin/refout false, xorout 0.
`crc16_update` processes one input byte MSB-first; `digest.finalize()` is the
accumulator itself (xorout 0), stored on disk as 4 little-endian bytes of the
zero-extended u32. -/

def crc16_update (crc b : Nat) : Nat :=
  (List.range 8).foldl
    (fun c _ => if c &&& 0x8000 ≠ 0 then ((c <<< 1) ^^^ 0x8005) % 2 ^ 16 else (c <<< 1) % 2 ^ 16)
    ((crc ^^^ (b <<< 8)) % 2 ^ 16)

def crc16 (data : List Nat) : Nat :=
  data.foldl crc16_update 0xffff

/-- `n.to_le_bytes()` truncated/zero-extended to `len` bytes. -/
def to_le_bytes (n : Nat) : Nat → List Nat
  | 0 => []
  | len + 1 => (n % 256) :: to_le_bytes (n >>> 8) len

/-! ### Segment — `src/storage/segment.rs`

The mutable-segment state tracked by `SegmentInternal` plus the file contents
(`data`).  `seg_write` is `Segment::write`; `next_block_offset`,
`seg_iter_step` and `seg_iter` model the forward iterator
(`SegmentIter::next`).  A `fail` result stands for a source panic or a
non-terminating varint decode; `eof` ends iteration. -/

def BLOCK_BYTES : Nat := 32 * 1024
def MAX_SEGMENT_BYTES : Nat := 1024 * 1024 * 1024
def FLAG_PADDING : Nat := 1
def FLAG_DELETED : Nat := 2

structure Record where
  key : List Nat
  value : List Nat
  flag : Nat
deriving Repr, DecidableEq

structure RecordIndex where
  key : List Nat
  segment : List Nat
  flag : Nat
  offset : Nat
  value : Option (List Nat)
deriving Repr, DecidableEq

def RecordIndex.is_deleted (r : RecordIndex) : Bool :=
  r.flag &&& FLAG_DELETED > 0

structure SegState where
  block_written : Nat
  segment_written : Nat
  data : List Nat
deriving Repr, DecidableEq

def seg_init : SegState := ⟨0, 0, []⟩

structure WriteResult where
  is_segment_full : Bool
  begin_offset : Nat
deriving Repr, DecidableEq

/-- The framed record bytes pushed into `internal.buffer`:
flag, key-length varint, value-length varint, key, value, 4 CRC bytes. -/
def record_buffer (key value : List Nat) (flag : Nat) : List Nat :=
  flag :: (encode_varint_to_vec key.length ++ encode_varint_to_vec value.length ++
    key ++ value ++ to_le_bytes (crc16 (key ++ value)) 4)

/-- `header_len` of `Segment::write`: both length varints plus the flag byte. -/
def header_len (key value : List Nat) : Nat :=
  (encode_varint_to_vec key.length).length + (encode_varint_to_vec value.length).length + 1

/-- The padding bytes written when the header does not fit in the current
block: `vec![0; BLOCK_BYTES - block_written]` with the first byte replaced by
`FLAG_PADDING` (only when the padding region is non-empty). -/
def pad_bytes (n : Nat) : List Nat :=
  match n with
  | 0 => []
  | m + 1 => FLAG_PADDING :: List.replicate m 0

/-- `Segment::write` on the mutable segment. -/
def seg_write (s : SegState) (key value : List Nat) (flag : Nat) :
    SegState × WriteResult :=
  let hl := header_len key value
  let s1 :=
    if hl + s.block_written > BLOCK_BYTES then
      let s' :=
        if BLOCK_BYTES - s.block_written > 0 then
          -- `padding.len()` is `BLOCK_BYTES - s.block_written`
          { s with data := s.data ++ pad_bytes (BLOCK_BYTES - s.block_written),
                   segment_written :=
                     s.segment_written + (BLOCK_BYTES - s.block_written) }
        else s
      { s' with block_written := 0 }
    else s
  let begin_offset := s1.segment_written
  let buf := record_buffer key value flag
  let written := buf.length
  let s2 : SegState :=
    { block_written := (s1.block_written + written) % BLOCK_BYTES,
      segment_written := s1.segment_written + written,
      data := s1.data ++ buf }
  (s2, ⟨decide (s2.segment_written ≥ MAX_SEGMENT_BYTES), begin_offset⟩)

structure SegOp where
  key : List Nat
  value : List Nat
  flag : Nat
deriving Repr, DecidableEq

/-- A sequence of appends to one mutable segment. -/
def seg_write_all (s : SegState) : List SegOp → SegState × List WriteResult
  | [] => (s, [])
  | op :: ops =>
    let (s', r) := seg_write s op.key op.value op.flag
    let (s'', rs) := seg_write_all s' ops
    (s'', r :: rs)

/-- `next_block_offset` of the iterator. -/
def next_block_offset (offset : Nat) : Nat :=
  if offset % BLOCK_BYTES = 0 then offset + BLOCK_BYTES
  else (offset / BLOCK_BYTES + 1) * BLOCK_BYTES

inductive IterStep where
  /-- `read_at` returned 0 bytes: end of file, the iterator yields `None`. -/
  | eof : IterStep
  /-- the source panics (failed `read_exact` / decode error) or its varint
  decode never returns; no item is yielded. -/
  | fail : IterStep
  /-- a yielded `RecordIndex` together with the iterator's next offset. -/
  | item : RecordIndex → Nat → IterStep
deriving Repr, DecidableEq

/-- Parsing one record whose flag byte (already read) sits at `record_offset`,
with the read cursor at `pos` (first byte of the key-length varint). -/
def parse_record_at (name : List Nat) (bytes : List Nat)
    (record_offset flag pos : Nat) (with_value : Bool) : IterStep :=
  match decode_varint (bytes.drop pos) with
  | none => .fail
  | some (key_len, n1) =>
    match decode_varint (bytes.drop (pos + n1)) with
    | none => .fail
    | some (value_len, n2) =>
      let key_start := pos + n1 + n2
      if key_len ≤ bytes.length - key_start then
        let key := (bytes.drop key_start).take key_len
        if with_value then
          if value_len ≤ bytes.length - (key_start + key_len) then
            let value := (bytes.drop (key_start + key_len)).take value_len
            .item ⟨key, name, flag, record_offset, some value⟩
              (key_start + key_len + value_len + 4)
          else .fail
        else
          .item ⟨key, name, flag, record_offset, none⟩
            (key_start + key_len + value_len + 4)
      else .fail

/-- One call of `SegmentIter::next` at `offset`. -/
def seg_iter_step (name : List Nat) (bytes : List Nat) (offset : Nat)
    (with_value : Bool) : IterStep :=
  match bytes[offset]? with
  | none => .eof
  | some flag =>
    if flag &&& FLAG_PADDING > 0 then
      let offset' := next_block_offset offset
      match bytes[offset']? with
      | none => .eof
      | some flag' => parse_record_at name bytes offset' flag' (offset' + 1) with_value
    else
      parse_record_at name bytes offset flag (offset + 1) with_value

/-- Driving the iterator to completion.  The fuel `bytes.length + 1` bounds
the number of steps; every successful step advances the offset. -/
def seg_iter_go (name : List Nat) (bytes : List Nat) :
    Nat → Nat → Bool → List RecordIndex
  | 0, _, _ => []
  | fuel + 1, offset, with_value =>
    match seg_iter_step name bytes offset with_value with
    | .eof => []
    | .fail => []
    | .item ri next => ri :: seg_iter_go name bytes fuel next with_value

def seg_iter (name : List Nat) (bytes : List Nat) (with_value : Bool) :
    List RecordIndex :=
  seg_iter_go name bytes (bytes.length + 1) 0 with_value

/-- `Segment::read_at_fd` over the file contents. -/
def seg_read_at (bytes : List Nat) (offset : Nat) : Except String Record :=
  match bytes[offset]? with
  | none => .error "reach end of file"
  | some flag =>
    if flag &&& FLAG_PADDING > 0 then .ok ⟨[], [], flag⟩
    else
      match decode_varint (bytes.drop (offset + 1)) with
      | none => .error "decode did not return"
      | some (key_len, n1) =>
        match decode_varint (bytes.drop (offset + 1 + n1)) with
        | none => .error "decode did not return"
        | some (value_len, n2) =>
          let key_start := offset + 1 + n1 + n2
          if key_len ≤ bytes.length - key_start then
            if value_len ≤ bytes.length - (key_start + key_len) then
              .ok ⟨(bytes.drop key_start).take key_len,
                   (bytes.drop (key_start + key_len)).take value_len, flag⟩
            else .error "read_exact panic"
          else .error "read_exact panic"

/-! ### Segment names and string-keyed BTreeMap — `src/storage/directory.rs`

Segment names are the decimal file stems (`<index>.seg`); `BTreeMap<String, _>`
orders its keys lexicographically by bytes.  `map_insert` keeps the assoc list
sorted in that order, so list order equals `BTreeMap` iteration order.
`map_remove` is `BTreeMap::remove` (maps built here hold each key once). -/

def nat_digits_go : Nat → Nat → List Nat
  | 0, _ => []
  | fuel + 1, n => if n < 10 then [n] else nat_digits_go fuel (n / 10) ++ [n % 10]

/-- Decimal digits of `n`, most significant first (`fuel` only bounds the
recursion depth; `n + 1` always outlasts the digit count). -/
def nat_digits (n : Nat) : List Nat := nat_digits_go (n + 1) n

/-- ASCII decimal name of segment `i` (the file stem of `<i>.seg`). -/
def seg_name (i : Nat) : List Nat :=
  (nat_digits i).map (· + 48)

/-- Lexicographic byte order on names (Rust `String` / `Vec<u8>` `Ord`). -/
def lex_lt : List Nat → List Nat → Bool
  | _, [] => false
  | [], _ :: _ => true
  | a :: as, b :: bs => if a < b then true else if b < a then false else lex_lt as bs

def map_insert {α : Type} (k : List Nat) (v : α) :
    List (List Nat × α) → List (List Nat × α)
  | [] => [(k, v)]
  | (k', v') :: rest =>
    if k = k' then (k, v) :: rest
    else if lex_lt k k' then (k, v) :: (k', v') :: rest
    else (k', v') :: map_insert k v rest

def map_get {α : Type} (k : List Nat) : List (List Nat × α) → Option α
  | [] => none
  | (k', v') :: rest => if k = k' then some v' else map_get k rest

def map_remove {α : Type} (k : List Nat) (m : List (List Nat × α)) :
    List (List Nat × α) :=
  m.filter (fun e => e.1 ≠ k)

/-! ### Directory — `src/storage/directory.rs`

`old_segments` maps a name to the segment stored under it; each stored
segment carries its own file index (the parsed stem of its path, what
`Segment::index()` returns) and its contents. -/

structure OldSegment where
  file_index : Nat
  contents : List Nat
deriving Repr, DecidableEq

structure DirState where
  active_index : Nat
  active_segment : SegState
  old_segments : List (List Nat × OldSegment)
deriving Repr, DecidableEq

/-- A fresh directory (`Directory::new_directory`): active segment index 1,
no immutable segments. -/
def dir_init : DirState := ⟨1, seg_init, []⟩

/-- `Directory::rotate_active_segment`: create the next segment, make it
active, then insert the just-filled segment into `old_segments` — keyed by
`internal.active_segment.name()` evaluated AFTER the reassignment, i.e. by
the NEW active segment's name. -/
def rotate_active_segment (d : DirState) : DirState :=
  let new_index := d.active_index + 1
  { active_index := new_index,
    active_segment := seg_init,
    old_segments :=
      map_insert (seg_name new_index)
        ⟨d.active_index, d.active_segment.data⟩ d.old_segments }

/-- `Directory::write`: append to the active segment; on `is_segment_full`
rotate (the single-writer model always passes the check-lock-check). The
returned locator names the segment that received the write. -/
def dir_write (d : DirState) (key value : List Nat) (flag : Nat) :
    DirState × RecordIndex :=
  (if (seg_write d.active_segment key value flag).2.is_segment_full then
     rotate_active_segment
       { d with active_segment := (seg_write d.active_segment key value flag).1 }
   else { d with active_segment := (seg_write d.active_segment key value flag).1 },
   ⟨key, seg_name d.active_index, flag,
    (seg_write d.active_segment key value flag).2.begin_offset, none⟩)

/-- `Directory::read_at`: dispatch on the locator's segment name. -/
def dir_read_at (d : DirState) (idx : RecordIndex) : Except String Record :=
  if idx.segment = seg_name d.active_index then
    seg_read_at d.active_segment.data idx.offset
  else
    match map_get idx.segment d.old_segments with
    | some seg => seg_read_at seg.contents idx.offset
    | none => .error "segment not found"

/-! ### Index and database facade — `src/database/index.rs`, `database.rs` -/

structure DbState where
  storage : DirState
  index : List (List Nat × RecordIndex)
deriving Repr, DecidableEq

def db_init : DbState := ⟨dir_init, []⟩

/-- `Database::write`: flag 0, then `index.set` with the returned locator. -/
def db_write (db : DbState) (key value : List Nat) : DbState :=
  let r := dir_write db.storage key value 0
  { storage := r.1, index := map_insert key r.2 db.index }

/-- `Database::delete`: tombstone append (flag `DELETED`, empty value), then
`index.delete`. -/
def db_delete (db : DbState) (key : List Nat) : DbState :=
  let r := dir_write db.storage key [] FLAG_DELETED
  { storage := r.1, index := map_remove key db.index }

/-- `Database::read`: index lookup, then `Directory::read_at` on a hit. -/
def db_read (db : DbState) (key : List Nat) : Except String (Option (List Nat)) :=
  match map_get key db.index with
  | some idx => (dir_read_at db.storage idx).map (fun r => some r.value)
  | none => .ok none

/-- The segment-scan phase of `Database::load_index`: iterate `old_segments`
in map (string) order; skip a segment when its own parsed index is
≤ `max_merged_segment`; replay each yielded record into the index map. -/
def apply_record_index (m : List (List Nat × RecordIndex)) (ri : RecordIndex) :
    List (List Nat × RecordIndex) :=
  if ri.is_deleted then map_remove ri.key m else map_insert ri.key ri m

def load_index_segments (max_merged_segment : Nat)
    (old_segments : List (List Nat × OldSegment))
    (m : List (List Nat × RecordIndex)) : List (List Nat × RecordIndex) :=
  old_segments.foldl
    (fun m e =>
      if e.2.file_index ≤ max_merged_segment then m
      else (seg_iter (seg_name e.2.file_index) e.2.contents false).foldl
        apply_record_index m)
    m

/-! ### Merge — `src/database/merge.rs` -/

/-- The `segments` map of `Database::merge`: every to-merge segment inserted
into a `BTreeMap<String, Segment>` under its own name. -/
def merge_segments_map (to_merge_names : List (List Nat)) :
    List (List Nat × List Nat) :=
  to_merge_names.foldl (fun m n => map_insert n n m) []

/-- The name written into `merged/merge-finish`:
`segments.last_key_value().unwrap().1.name()` — the value of the LAST key in
string order. -/
def merge_finish_name (to_merge_names : List (List Nat)) : Option (List Nat) :=
  (merge_segments_map to_merge_names).getLast?.map (·.2)

/-- `fs::remove_file` on `data/<i>.seg`: an absent file is an error
(`NotFound`), which `try_load_merged` propagates with `?`. -/
def remove_file (present : List Nat) (i : Nat) : Except String (List Nat) :=
  if i ∈ present then .ok (present.erase i) else .error "No such file or directory"

/-- The deletion loop of `Database::try_load_merged`:
`for i in 1..(max_merged_segment + 1) { fs::remove_file(data/<i>.seg)?; }`. -/
def remove_merged_segments (present : List Nat) (max_merged_segment : Nat) :
    Except String (List Nat) :=
  (List.range' 1 max_merged_segment).foldlM remove_file present

/-! ### Concrete scenario fixtures -/

/-- A segment holding one record: key `"k"` (0x6b), one-byte value `64 + i`. -/
def one_record_segment (i : Nat) : List Nat :=
  (seg_write seg_init [107] [64 + i] 0).1.data

/-- The `old_segments` map `Directory::open` builds for a data directory with
segment files `1.seg` … `10.seg` (each keyed by its own name, collected into a
`BTreeMap`), every segment holding one record for the key `"k"`. -/
def ten_segment_directory : List (List Nat × OldSegment) :=
  (List.range' 1 10).foldl
    (fun m i => map_insert (seg_name i) ⟨i, one_record_segment i⟩ m) []

/-- A framed record for key `"k"` (0x6b), value `"v"` (0x76), flag 0, whose
4-byte CRC field holds `de ad 00 00` — NOT the CRC-16 of key ++ value. -/
def bad_crc_record_bytes : List Nat := [0, 1, 1, 107, 118, 0xde, 0xad, 0, 0]

/-! ## Supporting lemmas -/

/-! ### Auxiliary bitwise lemmas -/

theorem nat_and_or_right (a b c : Nat) : (a ||| b) &&& c = (a &&& c) ||| (b &&& c) :=
  Nat.eq_of_testBit_eq fun i => by
    simp [Nat.testBit_and, Nat.testBit_or, Bool.and_or_distrib_right]

theorem nat_and_127 (n : Nat) : n &&& 127 = n % 128 := by
  have h := Nat.and_pow_two_sub_one_eq_mod n 7
  norm_num at h
  omega

theorem nat_shiftLeft_or (a b n : Nat) : (a ||| b) <<< n = (a <<< n) ||| (b <<< n) :=
  Nat.eq_of_testBit_eq fun i => by
    simp only [Nat.testBit_shiftLeft, Nat.testBit_or]
    cases Nat.decLe n i with
    | isTrue h => simp [h]
    | isFalse h => simp [h]

/-- Splitting a natural number into its low 7 bits and the rest. -/
theorem nat_split7 (v : Nat) : (v &&& 127) ||| ((v >>> 7) <<< 7) = v :=
  Nat.eq_of_testBit_eq fun i => by
    simp only [Nat.testBit_or, Nat.testBit_and, Nat.testBit_shiftLeft,
      Nat.testBit_shiftRight]
    have h127 : (127 : Nat) = 2 ^ 7 - 1 := by norm_num
    rw [h127, Nat.testBit_two_pow_sub_one]
    by_cases h : i < 7
    · simp [h, Nat.not_le_of_lt h]
    · have h7 : 7 ≤ i := Nat.le_of_not_lt h
      simp [h, h7, Nat.add_sub_cancel' h7]

theorem nat_and_128_eq_zero {v : Nat} (h : v < 128) : v &&& 128 = 0 := by
  have h128 : (128 : Nat) = 2 ^ 7 := by norm_num
  rw [h128, Nat.and_two_pow]
  have : v.testBit 7 = false := Nat.testBit_lt_two_pow (by omega)
  simp [this]

theorem nat_or_128_and_128 (a : Nat) : (a ||| 128) &&& 128 = 128 := by
  rw [nat_and_or_right]
  have h : (128 : Nat) &&& 128 = 128 := by decide
  rw [h]
  exact Nat.eq_of_testBit_eq fun i => by
    simp only [Nat.testBit_or, Nat.testBit_and]
    cases hb : (128 : Nat).testBit i <;> simp [hb, Bool.and_comm]

theorem nat_and_127_lt (v : Nat) : v &&& 127 < 128 := by
  rw [nat_and_127]; omega

theorem nat_or_128_and_127 (a : Nat) (h : a < 128) : (a ||| 128) &&& 127 = a := by
  rw [nat_and_or_right]
  have h1 : (128 : Nat) &&& 127 = 0 := by decide
  rw [h1, Nat.or_zero, nat_and_127, Nat.mod_eq_of_lt h]

/-! Basic facts about the encoder. -/

theorem encode_varint_go_zero : ∀ (fuel : Nat), encode_varint_go fuel 0 = [] := by
  intro fuel
  cases fuel <;> simp [encode_varint_go]

theorem encode_varint_go_length : ∀ (fuel : Nat) {k v : Nat}, v < 2 ^ (7 * k) →
    (encode_varint_go fuel v).length ≤ k := by
  intro fuel
  induction fuel with
  | zero => intro k v _; simp [encode_varint_go]
  | succ fuel ih =>
    intro k v hv
    rw [encode_varint_go]
    by_cases h0 : v = 0
    · simp [h0]
    · simp only [h0, if_false, List.length_cons]
      cases k with
      | zero =>
        norm_num at hv
        omega
      | succ k =>
        have hdiv : v >>> 7 < 2 ^ (7 * k) := by
          rw [Nat.shiftRight_eq_div_pow]
          have hlt : v < 2 ^ (7 * k) * 2 ^ 7 := by
            rw [← pow_add]
            have he : 7 * k + 7 = 7 * (k + 1) := by ring
            rw [he]; exact hv
          exact Nat.div_lt_of_lt_mul (by omega)
        exact Nat.succ_le_succ (ih hdiv)

theorem encode_varint_to_vec_length {v : Nat} (h : v < 2 ^ 64) :
    (encode_varint_to_vec v).length ≤ 10 := by
  rw [encode_varint_to_vec]
  by_cases h0 : v = 0
  · simp [h0]
  · simp only [h0, if_false]
    exact @encode_varint_go_length (v + 1) 10 v (by norm_num; omega)

theorem nat_shiftLeft_le {a b : Nat} (n : Nat) (h : a ≤ b) : a <<< n ≤ b <<< n := by
  simp only [Nat.shiftLeft_eq]
  exact Nat.mul_le_mul_right _ h

/-- Decoding the encoder's output, followed by any suffix, consumes exactly the
encoded bytes and recovers the value shifted into position. -/
theorem decode_varint_go_encode : ∀ (fuel v : Nat)
    (rest : List Nat) (result shift read stale : Nat), 0 < v → v < 128 ^ fuel →
    v <<< shift < 2 ^ 64 →
    decode_varint_go (encode_varint_go fuel v ++ rest) result shift read stale =
      some (result ||| v <<< shift, read + (encode_varint_go fuel v).length) := by
  intro fuel
  induction fuel with
  | zero =>
    intro v rest result shift read stale hv hfuel _
    norm_num at hfuel
    omega
  | succ fuel ih =>
    intro v rest result shift read stale hv hfuel hbound
    by_cases h7 : v >>> 7 > 0
    · -- non-terminal byte: high bit set, recurse
      have hlist : encode_varint_go (fuel + 1) v =
          ((v &&& 127) ||| 128) :: encode_varint_go fuel (v >>> 7) := by
        rw [encode_varint_go]
        simp [Nat.ne_of_gt hv, h7]
      rw [hlist, List.cons_append, decode_varint_go]
      have hlt : v &&& 127 < 128 := nat_and_127_lt v
      simp only [nat_or_128_and_128, nat_or_128_and_127 _ hlt]
      have hne : ¬(((128 : Nat) == 0) = true) := by decide
      rw [if_neg hne]
      have hsmall : (v &&& 127) <<< shift < 2 ^ 64 :=
        Nat.lt_of_le_of_lt (nat_shiftLeft_le shift Nat.and_le_left) hbound
      rw [Nat.mod_eq_of_lt hsmall]
      have hfuel' : v >>> 7 < 128 ^ fuel := by
        rw [Nat.shiftRight_eq_div_pow]
        have hlt128 : v < 128 * 128 ^ fuel := by
          have hps := pow_succ 128 fuel
          omega
        have h27 : (2 : Nat) ^ 7 = 128 := by norm_num
        rw [h27]
        exact Nat.div_lt_of_lt_mul hlt128
      have hrec : (v >>> 7) <<< (shift + 7) < 2 ^ 64 := by
        have hle : (v >>> 7) <<< (shift + 7) ≤ v <<< shift := by
          simp only [Nat.shiftLeft_eq, Nat.shiftRight_eq_div_pow]
          calc v / 2 ^ 7 * 2 ^ (shift + 7) = v / 2 ^ 7 * 2 ^ 7 * 2 ^ shift := by ring
            _ ≤ v * 2 ^ shift :=
                Nat.mul_le_mul_right _ (Nat.div_mul_le_self v (2 ^ 7))
        omega
      rw [ih (v >>> 7) rest _ (shift + 7) (read + 1) _ h7 hfuel' hrec]
      simp only [Option.some.injEq, Prod.mk.injEq]
      refine ⟨?_, ?_⟩
      · -- value: fold the two pieces back into v <<< shift
        rw [Nat.or_assoc]
        congr 1
        have hstep : (v >>> 7) <<< (shift + 7) = ((v >>> 7) <<< 7) <<< shift := by
          simp only [Nat.shiftLeft_eq, pow_add]; ring
        rw [hstep, ← nat_shiftLeft_or, nat_split7]
      · -- byte count
        rw [List.length_cons]; omega
    · -- terminal byte: v < 128, high bit clear
      have h70 : v >>> 7 = 0 := by omega
      have hv128 : v < 128 := by
        rw [Nat.shiftRight_eq_div_pow] at h70
        norm_num at h70
        omega
      have hlist : encode_varint_go (fuel + 1) v = [v &&& 127] := by
        rw [encode_varint_go]
        simp [Nat.ne_of_gt hv, h7, h70, encode_varint_go_zero]
      have hv127 : v &&& 127 = v := by
        rw [nat_and_127]; exact Nat.mod_eq_of_lt hv128
      rw [hv127] at hlist
      rw [hlist, List.cons_append, List.nil_append, decode_varint_go]
      have hand : v &&& 128 = 0 := nat_and_128_eq_zero hv128
      simp only [hand, beq_self_eq_true, if_true, hv127]
      rw [Nat.mod_eq_of_lt hbound]
      rfl

/-- Decoding an encoded value with any suffix appended: the decoder consumes
exactly the encoding and returns the value. -/
theorem decode_varint_encode_append (x : Nat) (rest : List Nat) (hx : x < 2 ^ 64) :
    decode_varint (encode_varint_to_vec x ++ rest) =
      some (x, (encode_varint_to_vec x).length) := by
  rw [encode_varint_to_vec, decode_varint]
  by_cases h0 : x = 0
  · subst h0
    simp only [if_true]
    rw [List.cons_append, decode_varint_go]
    norm_num
  · simp only [h0, if_false]
    have hpos : 0 < x := Nat.pos_of_ne_zero h0
    have hfuel : x < 128 ^ (x + 1) := by
      calc x < 2 ^ x := Nat.lt_two_pow x
        _ ≤ 128 ^ x := Nat.pow_le_pow_left (by norm_num) x
        _ ≤ 128 ^ (x + 1) := Nat.pow_le_pow_right (by norm_num) (by omega)
    have hb : x <<< 0 < 2 ^ 64 := by
      rw [Nat.shiftLeft_eq]; norm_num; omega
    rw [decode_varint_go_encode (x + 1) x rest 0 0 0 0 hpos hfuel hb]
    rw [Nat.shiftLeft_eq]
    norm_num

/-- The stream decoder on input that ends before any terminator byte: it
never returns with an error.  An empty input terminates immediately on the
stale zero in the read buffer; a non-empty unterminated input leaves the
stale byte's high bit set, and the source loop never returns (`none`). -/
theorem decode_varint_go_unterminated :
    ∀ (l : List Nat) (result shift read stale : Nat), l ≠ [] →
    (∀ b ∈ l, b &&& 0x80 ≠ 0) →
    decode_varint_go l result shift read stale = none := by
  intro l
  induction l with
  | nil => intro _ _ _ _ h; exact absurd rfl h
  | cons b rest ih =>
    intro result shift read stale _ hall
    rw [decode_varint_go]
    have hb : b &&& 128 ≠ 0 := hall b (List.mem_cons_self b rest)
    have hbne : ¬((b &&& 128 == 0) = true) := by
      simpa using hb
    rw [if_neg hbne]
    cases rest with
    | nil =>
      rw [decode_varint_go]
      rw [if_neg hbne]
    | cons c rest' =>
      exact ih _ _ _ _ (List.cons_ne_nil c rest') fun y hy =>
        hall y (List.mem_cons_of_mem b hy)

/-- The mmap decoder on a slice whose bytes all have the high bit set: it
runs off the end of the slice and hits the out-of-bounds panic (`none`),
never a `Corrupt` error. -/
theorem decode_varint_from_mmap_go_unterminated (l : List Nat) :
    ∀ (fuel i result shift : Nat),
    (∀ b ∈ l, b &&& 0x80 ≠ 0) →
    decode_varint_from_mmap_go l fuel i result shift = none := by
  intro fuel
  induction fuel with
  | zero => intro i result shift _; rfl
  | succ fuel ih =>
    intro i result shift hall
    rw [decode_varint_from_mmap_go]
    cases hg : l[i]? with
    | none => rfl
    | some b =>
      have hb : b &&& 128 ≠ 0 := hall b (List.getElem?_mem hg)
      have hbne : ¬((b &&& 128 == 0) = true) := by simpa using hb
      simp only [if_neg hbne]
      exact ih _ _ _ hall

/-! Supporting lemmas about `seg_write` and the index map. -/

theorem to_le_bytes_length : ∀ (len n : Nat), (to_le_bytes n len).length = len := by
  intro len
  induction len with
  | zero => intro n; rfl
  | succ len ih => intro n; simp [to_le_bytes, ih]

theorem record_buffer_length (key value : List Nat) (flag : Nat) :
    (record_buffer key value flag).length =
      header_len key value + key.length + value.length + 4 := by
  simp [record_buffer, header_len, to_le_bytes_length]
  omega

theorem header_len_le {key value : List Nat} (hk : key.length < 2 ^ 64)
    (hv : value.length < 2 ^ 64) : header_len key value ≤ 21 := by
  have h1 := encode_varint_to_vec_length hk
  have h2 := encode_varint_to_vec_length hv
  simp only [header_len]
  omega

theorem pad_bytes_length : ∀ (n : Nat), (pad_bytes n).length = n := by
  intro n
  cases n <;> simp [pad_bytes]

/-- `Segment::write` when the header fits in the current block. -/
theorem seg_write_no_pad {s : SegState} {key value : List Nat} {flag : Nat}
    (h : header_len key value + s.block_written ≤ BLOCK_BYTES) :
    seg_write s key value flag =
      ({ block_written :=
           (s.block_written + (record_buffer key value flag).length) % BLOCK_BYTES,
         segment_written := s.segment_written + (record_buffer key value flag).length,
         data := s.data ++ record_buffer key value flag },
       ⟨decide (s.segment_written + (record_buffer key value flag).length ≥
          MAX_SEGMENT_BYTES), s.segment_written⟩) := by
  simp only [seg_write]
  rw [if_neg (by omega)]

/-- `Segment::write` when the header does not fit: the block remainder is
padded first. -/
theorem seg_write_pad {s : SegState} {key value : List Nat} {flag : Nat}
    (h : header_len key value + s.block_written > BLOCK_BYTES)
    (hbw : s.block_written < BLOCK_BYTES) :
    seg_write s key value flag =
      ({ block_written := (0 + (record_buffer key value flag).length) % BLOCK_BYTES,
         segment_written := s.segment_written + (BLOCK_BYTES - s.block_written) +
           (record_buffer key value flag).length,
         data := s.data ++ pad_bytes (BLOCK_BYTES - s.block_written) ++
           record_buffer key value flag },
       ⟨decide (s.segment_written + (BLOCK_BYTES - s.block_written) +
            (record_buffer key value flag).length ≥ MAX_SEGMENT_BYTES),
        s.segment_written + (BLOCK_BYTES - s.block_written)⟩) := by
  simp only [seg_write]
  rw [if_pos (by omega), if_pos (by omega)]

/-- The data appended by one `Segment::write`, in every state. -/
theorem seg_write_data (s : SegState) (key value : List Nat) (flag : Nat) :
    (seg_write s key value flag).1.data =
      s.data ++
        (if header_len key value + s.block_written > BLOCK_BYTES
         then pad_bytes (BLOCK_BYTES - s.block_written) else []) ++
        record_buffer key value flag := by
  by_cases hc : header_len key value + s.block_written > BLOCK_BYTES
  · by_cases hz : BLOCK_BYTES - s.block_written > 0
    · simp only [seg_write]
      rw [if_pos hc, if_pos hz, if_pos hc]
    · have h0 : BLOCK_BYTES - s.block_written = 0 := by omega
      simp only [seg_write]
      rw [if_pos hc, if_neg hz, if_pos hc]
      simp [h0, pad_bytes]
  · simp only [seg_write]
    rw [if_neg hc, if_neg hc]
    simp

/-- The block-cursor invariant `block_written = segment_written % BLOCK_BYTES`
is preserved by every append. -/
theorem seg_write_inv {s : SegState} (key value : List Nat) (flag : Nat)
    (h : s.block_written = s.segment_written % BLOCK_BYTES) :
    (seg_write s key value flag).1.block_written =
      (seg_write s key value flag).1.segment_written % BLOCK_BYTES := by
  have hbw : s.block_written < BLOCK_BYTES := by
    rw [h]
    exact Nat.mod_lt _ (by norm_num [BLOCK_BYTES])
  by_cases hc : header_len key value + s.block_written > BLOCK_BYTES
  · rw [seg_write_pad hc hbw]
    simp only [BLOCK_BYTES] at *
    omega
  · rw [seg_write_no_pad (Nat.le_of_not_lt hc)]
    simp only [BLOCK_BYTES] at *
    omega

/-- The record returned by one append starts where the previous data ended
(after any padding), and its whole header lies inside one block. -/
theorem seg_write_begin_block {s : SegState} (key value : List Nat) (flag : Nat)
    (h : s.block_written = s.segment_written % BLOCK_BYTES)
    (hk : key.length < 2 ^ 64) (hv : value.length < 2 ^ 64) :
    (seg_write s key value flag).2.begin_offset % BLOCK_BYTES +
      header_len key value ≤ BLOCK_BYTES := by
  have hhl : header_len key value ≤ 21 := header_len_le hk hv
  have hbw : s.block_written < BLOCK_BYTES := by
    rw [h]
    exact Nat.mod_lt _ (by norm_num [BLOCK_BYTES])
  by_cases hc : header_len key value + s.block_written > BLOCK_BYTES
  · rw [seg_write_pad hc hbw]
    simp only [BLOCK_BYTES] at *
    omega
  · rw [seg_write_no_pad (Nat.le_of_not_lt hc)]
    simp only [BLOCK_BYTES] at *
    omega

theorem seg_write_all_cons (s : SegState) (op : SegOp) (ops : List SegOp) :
    seg_write_all s (op :: ops) =
      ((seg_write_all (seg_write s op.key op.value op.flag).1 ops).1,
       (seg_write s op.key op.value op.flag).2 ::
         (seg_write_all (seg_write s op.key op.value op.flag).1 ops).2) := rfl

/-- Every record in a run of appends has its header inside one block. -/
theorem seg_write_all_headers : ∀ (ops : List SegOp) (s0 : SegState),
    s0.block_written = s0.segment_written % BLOCK_BYTES →
    (∀ op ∈ ops, op.key.length < 2 ^ 64 ∧ op.value.length < 2 ^ 64) →
    ∀ (i : Nat) (op : SegOp) (r : WriteResult), ops[i]? = some op →
    (seg_write_all s0 ops).2[i]? = some r →
    r.begin_offset % BLOCK_BYTES + header_len op.key op.value ≤ BLOCK_BYTES := by
  intro ops
  induction ops with
  | nil =>
    intro s0 _ _ i op r hop
    simp at hop
  | cons o ops ih =>
    intro s0 hinv hwf i op r hop hr
    rw [seg_write_all_cons] at hr
    cases i with
    | zero =>
      simp only [List.getElem?_cons_zero, Option.some.injEq] at hop hr
      have hko := hwf o (List.mem_cons_self o ops)
      rw [← hop, ← hr]
      exact seg_write_begin_block o.key o.value o.flag hinv hko.1 hko.2
    | succ i =>
      simp only [List.getElem?_cons_succ] at hop hr
      have hinv' := @seg_write_inv s0 o.key o.value o.flag hinv
      have hwf' : ∀ x ∈ ops, x.key.length < 2 ^ 64 ∧ x.value.length < 2 ^ 64 :=
        fun x hx => hwf x (List.mem_cons_of_mem o hx)
      exact ih _ hinv' hwf' i op r hop hr

theorem map_get_remove_self {α : Type} (k : List Nat) (m : List (List Nat × α)) :
    map_get k (map_remove k m) = none := by
  induction m with
  | nil => rfl
  | cons e rest ih =>
    obtain ⟨k1, v1⟩ := e
    by_cases he : k1 = k
    · have h1 : map_remove k ((k1, v1) :: rest) = map_remove k rest := by
        simp [map_remove, List.filter_cons, he]
      rw [h1]
      exact ih
    · have h1 : map_remove k ((k1, v1) :: rest) = (k1, v1) :: map_remove k rest := by
        simp [map_remove, List.filter_cons, he]
      rw [h1, map_get, if_neg (fun hk => he hk.symm)]
      exact ih

theorem map_get_remove_ne {α : Type} {k k' : List Nat} (m : List (List Nat × α))
    (h : k' ≠ k) : map_get k' (map_remove k m) = map_get k' m := by
  induction m with
  | nil => rfl
  | cons e rest ih =>
    obtain ⟨k1, v1⟩ := e
    by_cases he : k1 = k
    · have h1 : map_remove k ((k1, v1) :: rest) = map_remove k rest := by
        simp [map_remove, List.filter_cons, he]
      rw [h1, ih, map_get, if_neg (fun hk => h (hk.trans he))]
    · have h1 : map_remove k ((k1, v1) :: rest) = (k1, v1) :: map_remove k rest := by
        simp [map_remove, List.filter_cons, he]
      rw [h1, map_get, map_get]
      by_cases hke : k' = k1
      · rw [if_pos hke, if_pos hke]
      · rw [if_neg hke, if_neg hke]
        exact ih

/-! ## Claim theorems -/

/-- C7: Varint round-trip: for every u64 `x`, decoding the stream encoding of
`x` yields exactly `(x, n)` where `n` is the byte length of the encoding. -/
theorem varint_round_trip (x : Nat) (hx : x < 2 ^ 64) :
    decode_varint (encode_varint_to_vec x) =
      some (x, (encode_varint_to_vec x).length) := by
  have h := decode_varint_encode_append x [] hx
  simpa using h

theorem varint_round_trip_witness :
    decode_varint (encode_varint_to_vec 300) =
      some (300, (encode_varint_to_vec 300).length) :=
  varint_round_trip 300 (by norm_num)

/-- C6 counterexample: on ten high-bit bytes (no terminator within the claimed
ten-byte bound) the stream decoder does not return a `Corrupt` error — it
never returns at all (`none`); on empty input (input ends before a
terminator) it returns `Ok (0, 0)`, not an error; the mmap decoder panics
(`none`) instead of returning `Corrupt`. -/
theorem varint_decoder_no_bound_counterexample :
    decode_varint (List.replicate 10 0x80) = none ∧
    decode_varint [] = some (0, 0) ∧
    decode_varint_from_mmap (List.replicate 10 0x80) 0 = none := by
  refine ⟨by decide, rfl, by decide⟩

/-- C6 amended: neither decoder enforces a ten-byte bound or returns a
`Corrupt` error on unterminated input.  The stream decoder scans for a byte
with the high bit clear: on empty input it returns `(0, 0)` (the stale zero in
its one-byte buffer terminates it) and on non-empty input without a
terminator it never returns normally; the mmap decoder indexes past the end
of the slice and panics. -/
theorem varint_decoder_unterminated_behavior (l : List Nat)
    (hall : ∀ b ∈ l, b &&& 0x80 ≠ 0) :
    decode_varint l = (if l = [] then some (0, 0) else none) ∧
    decode_varint_from_mmap l 0 = none := by
  constructor
  · cases l with
    | nil => rfl
    | cons b rest =>
      simp only [List.cons_ne_nil, if_false]
      exact decode_varint_go_unterminated (b :: rest) 0 0 0 0
        (List.cons_ne_nil b rest) hall
  · exact decode_varint_from_mmap_go_unterminated l (l.length - 0 + 1) 0 0 0 hall

theorem varint_decoder_unterminated_behavior_witness :
    decode_varint [0x80] = (if ([0x80] : List Nat) = [] then some (0, 0) else none) ∧
    decode_varint_from_mmap [0x80] 0 = none :=
  varint_decoder_unterminated_behavior [0x80] (by decide)

/-- C2: `rotate_active_segment` does NOT key the filled segment under its own
name.  Rotating a fresh directory (active segment `1`) produces an immutable
map whose single entry is keyed by the NEW active segment's name `"2"`, while
the stored segment's own name is `"1"`. -/
theorem rotation_inserts_under_new_name :
    (rotate_active_segment dir_init).old_segments =
      [(seg_name 2, ⟨1, []⟩)] ∧
    seg_name 2 ≠ seg_name 1 ∧
    (rotate_active_segment dir_init).active_index = 2 := by
  refine ⟨rfl, by decide, rfl⟩

/-- C4: with ten compacted segments `1.seg` … `10.seg`, the name written to
`merged/merge-finish` is `"9"` — the lexicographically last key of the
string-keyed `segments` map — not the numerically largest index `"10"`. -/
theorem merge_finish_holds_lex_max_name :
    merge_finish_name ((List.range' 1 10).map seg_name) = some (seg_name 9) ∧
    seg_name 10 ∈ (List.range' 1 10).map seg_name ∧
    seg_name 9 ≠ seg_name 10 := by
  refine ⟨by decide, by decide, by decide⟩

/-- C8 counterexample: with `max_merged_segment = 1` and `data/1.seg` already
absent, the deletion loop of `try_load_merged` propagates the `NotFound`
error instead of continuing. -/
theorem remove_merged_absent_counterexample :
    remove_merged_segments [] 1 = .error "No such file or directory" := rfl

/-- C8 amended: the deletion loop of `try_load_merged` propagates "file
already removed": whenever some index in `1..=max_merged_segment` has no
segment file present, the loop fails with the error instead of treating the
missing file as a no-op, so an interrupted handoff that already deleted some
segments fails on re-run. -/
theorem foldlM_remove_file_error :
    ∀ (l : List Nat) (present : List Nat) (i : Nat), i ∈ l → i ∉ present →
    l.foldlM remove_file present =
      (.error "No such file or directory" : Except String (List Nat)) := by
  intro l
  induction l with
  | nil => intro present i h _; exact absurd h (List.not_mem_nil i)
  | cons j rest ih =>
    intro present i hmem hnot
    rw [List.foldlM_cons]
    by_cases hj : j ∈ present
    · rw [remove_file, if_pos hj]
      have hine : i ≠ j := fun he => hnot (he ▸ hj)
      have hmem' : i ∈ rest := by
        cases List.mem_cons.mp hmem with
        | inl h => exact absurd h hine
        | inr h => exact h
      have hnot' : i ∉ present.erase j := fun hc => hnot (List.mem_of_mem_erase hc)
      simpa using ih (present.erase j) i hmem' hnot'
    · rw [remove_file, if_neg hj]
      rfl

theorem remove_merged_propagates_absent (present : List Nat)
    (max_merged_segment i : Nat) (h1 : 1 ≤ i) (h2 : i ≤ max_merged_segment)
    (h3 : i ∉ present) :
    remove_merged_segments present max_merged_segment =
      .error "No such file or directory" := by
  rw [remove_merged_segments]
  have hmem : i ∈ List.range' 1 max_merged_segment := by
    rw [List.mem_range'_1]
    omega
  exact foldlM_remove_file_error _ present i hmem h3

theorem remove_merged_propagates_absent_witness :
    remove_merged_segments [2] 2 = .error "No such file or directory" :=
  remove_merged_propagates_absent [2] 2 1 (by decide) (by decide) (by decide)

/-- C3: index rebuild iterates `old_segments` in lexicographic string order,
not ascending numeric index order.  With immutable segments `1` … `10` each
holding one record for the key `"k"`, the rebuilt index keeps the record of
segment `"9"` — the lexicographically last name processed — although segment
`10` holds the latest record for the key by (segment index, offset) order. -/
theorem load_index_iterates_in_lex_order :
    map_get [107] (load_index_segments 0 ten_segment_directory []) =
      some ⟨[107], seg_name 9, 0, 0, none⟩ ∧
    seg_iter (seg_name 10) (one_record_segment 10) false =
      [⟨[107], seg_name 10, 0, 0, none⟩] ∧
    seg_name 9 ≠ seg_name 10 := by
  refine ⟨by decide, by decide, by decide⟩

/-- C5 counterexample: a framed record whose 4-byte CRC field (`de ad 00 00`,
value 0xadde) does not match the CRC-16 of its key and value bytes is still
yielded by the rebuild iterator and inserted into the index; the rebuild
completes without any `Corrupt` error. -/
theorem rebuild_accepts_bad_crc :
    crc16 ([107] ++ [118]) ≠ 0xadde ∧
    to_le_bytes 0xadde 4 = [0xde, 0xad, 0, 0] ∧
    seg_iter (seg_name 1) bad_crc_record_bytes false =
      [⟨[107], seg_name 1, 0, 0, none⟩] ∧
    load_index_segments 0 [(seg_name 1, ⟨1, bad_crc_record_bytes⟩)] [] =
      [([107], ⟨[107], seg_name 1, 0, 0, none⟩)] := by
  refine ⟨by decide, by decide, by decide, by decide⟩

/-- C5 amended: the rebuild iterator does not read or verify the CRC field.
A framed record parses and is yielded whatever bytes follow its value — in
particular for any mismatched CRC — so corrupt records are silently accepted
and `open` succeeds. -/
theorem rebuild_ignores_crc_field (name k v c : List Nat) (flag : Nat)
    (hk : k.length < 2 ^ 64) (hv : v.length < 2 ^ 64)
    (hflag : flag &&& FLAG_PADDING = 0) :
    seg_iter_step name
      (flag :: (encode_varint_to_vec k.length ++ (encode_varint_to_vec v.length ++
        (k ++ (v ++ c))))) 0 false =
      .item ⟨k, name, flag, 0, none⟩
        (1 + (encode_varint_to_vec k.length).length +
          (encode_varint_to_vec v.length).length + k.length + v.length + 4) := by
  have hn1 : ∀ (l : List Nat) (a : Nat) (n : Nat), (a :: l).drop (1 + n) = l.drop n := by
    intro l a n
    rw [Nat.add_comm, List.drop_succ_cons]
  rw [seg_iter_step]
  simp only [List.getElem?_cons_zero]
  rw [if_neg (by omega : ¬(flag &&& FLAG_PADDING > 0))]
  rw [parse_record_at]
  have hd1 : (flag :: (encode_varint_to_vec k.length ++ (encode_varint_to_vec v.length ++
      (k ++ (v ++ c))))).drop (0 + 1) =
      encode_varint_to_vec k.length ++ (encode_varint_to_vec v.length ++ (k ++ (v ++ c))) := by
    simp
  rw [hd1, decode_varint_encode_append _ _ hk]
  simp only []
  have hd2 : (flag :: (encode_varint_to_vec k.length ++ (encode_varint_to_vec v.length ++
      (k ++ (v ++ c))))).drop (0 + 1 + (encode_varint_to_vec k.length).length) =
      encode_varint_to_vec v.length ++ (k ++ (v ++ c)) := by
    rw [Nat.zero_add, hn1, List.drop_left]
  rw [hd2, decode_varint_encode_append _ _ hv]
  simp only []
  have hd3 : (flag :: (encode_varint_to_vec k.length ++ (encode_varint_to_vec v.length ++
      (k ++ (v ++ c))))).drop (0 + 1 + (encode_varint_to_vec k.length).length +
        (encode_varint_to_vec v.length).length) = k ++ (v ++ c) := by
    rw [Nat.zero_add, Nat.add_assoc, hn1, ← List.length_append, ← List.append_assoc,
      List.drop_left]
  rw [if_pos (by simp; omega)]
  simp only [if_false, Bool.false_eq_true]
  rw [hd3, List.take_left]

theorem rebuild_ignores_crc_field_witness :
    seg_iter_step (seg_name 1) bad_crc_record_bytes 0 false =
      .item ⟨[107], seg_name 1, 0, 0, none⟩ 9 :=
  rebuild_ignores_crc_field (seg_name 1) [107] [118] [0xde, 0xad, 0, 0] 0
    (by decide) (by decide) (by decide)

/-- C9: Block framing.  (1) In every sequence of appends to a mutable segment
from the initial state, each record's header (flag byte plus both length
varints) lies inside a single 32 KiB block.  (2) When the header would not
fit in the current block, the remainder of the block is padded — the first
padding byte carries the `PADDING` flag — and the record begins at a block
boundary.  (3) The forward iterator skips a `PADDING`-flagged position to the
next block boundary and resumes there. -/
theorem block_framing :
    (∀ (ops : List SegOp),
       (∀ op ∈ ops, op.key.length < 2 ^ 64 ∧ op.value.length < 2 ^ 64) →
       ∀ (i : Nat) (op : SegOp) (r : WriteResult), ops[i]? = some op →
       (seg_write_all seg_init ops).2[i]? = some r →
       r.begin_offset % BLOCK_BYTES + header_len op.key op.value ≤ BLOCK_BYTES) ∧
    (∀ (s : SegState) (key value : List Nat) (flag : Nat),
       s.block_written = s.segment_written % BLOCK_BYTES →
       header_len key value + s.block_written > BLOCK_BYTES →
       (seg_write s key value flag).1.data =
         s.data ++ pad_bytes (BLOCK_BYTES - s.block_written) ++
           record_buffer key value flag ∧
       (pad_bytes (BLOCK_BYTES - s.block_written)).head? = some FLAG_PADDING ∧
       (seg_write s key value flag).2.begin_offset % BLOCK_BYTES = 0) ∧
    (∀ (name bytes : List Nat) (offset flag : Nat) (wv : Bool),
       bytes[offset]? = some flag → flag &&& FLAG_PADDING > 0 →
       seg_iter_step name bytes offset wv =
         match bytes[next_block_offset offset]? with
         | none => .eof
         | some flag' =>
             parse_record_at name bytes (next_block_offset offset) flag'
               (next_block_offset offset + 1) wv) := by
  refine ⟨?_, ?_, ?_⟩
  · intro ops hwf i op r hop hr
    exact seg_write_all_headers ops seg_init rfl hwf i op r hop hr
  · intro s key value flag hinv hc
    have hbw : s.block_written < BLOCK_BYTES := by
      rw [hinv]
      exact Nat.mod_lt _ (by norm_num [BLOCK_BYTES])
    refine ⟨?_, ?_, ?_⟩
    · rw [seg_write_data]
      rw [if_pos hc]
    · have hpos : 0 < BLOCK_BYTES - s.block_written := by omega
      obtain ⟨m, hm⟩ := Nat.exists_eq_add_of_lt hpos
      rw [show BLOCK_BYTES - s.block_written = m + 1 by omega]
      rfl
    · rw [seg_write_pad hc hbw]
      simp only [BLOCK_BYTES] at *
      omega
  · intro name bytes offset flag wv hget hflag
    rw [seg_iter_step, hget]
    simp only [if_pos hflag]

theorem block_framing_witness :
    (∀ (r : WriteResult),
       (seg_write_all seg_init [⟨[107], [118], 0⟩]).2[0]? = some r →
       r.begin_offset % BLOCK_BYTES + header_len [107] [118] ≤ BLOCK_BYTES) ∧
    (seg_write ⟨32767, 32767, []⟩ [107] [118] 0).1.data =
      [] ++ pad_bytes (BLOCK_BYTES - 32767) ++ record_buffer [107] [118] 0 ∧
    seg_iter_step [49] [1] 0 false = .eof :=
  ⟨fun r hr => block_framing.1 [⟨[107], [118], 0⟩] (by decide) 0 ⟨[107], [118], 0⟩ r rfl hr,
   (block_framing.2.1 ⟨32767, 32767, []⟩ [107] [118] 0 (by decide) (by decide)).1,
   block_framing.2.2 [49] [1] 0 1 false rfl (by decide)⟩

/-- C10: deleting a key that is absent from the in-memory index still
succeeds: the tombstone record (flag `DELETED`, empty value) is appended to
the active segment, `read` of the key then reports absence, and the index
entries of all other keys are unchanged. -/
theorem delete_absent_key_ok (db : DbState) (k : List Nat)
    (_habs : map_get k db.index = none) :
    (seg_write db.storage.active_segment k [] FLAG_DELETED).1.data =
      db.storage.active_segment.data ++
        (if header_len k [] + db.storage.active_segment.block_written > BLOCK_BYTES
         then pad_bytes (BLOCK_BYTES - db.storage.active_segment.block_written)
         else []) ++ record_buffer k [] FLAG_DELETED ∧
    db_read (db_delete db k) k = .ok none ∧
    (∀ k', k' ≠ k → map_get k' (db_delete db k).index = map_get k' db.index) := by
  refine ⟨seg_write_data _ k [] FLAG_DELETED, ?_, ?_⟩
  · rw [db_read]
    have h1 : (db_delete db k).index = map_remove k db.index := rfl
    rw [h1, map_get_remove_self]
  · intro k' hk'
    have h1 : (db_delete db k).index = map_remove k db.index := rfl
    rw [h1, map_get_remove_ne db.index hk']

theorem delete_absent_key_ok_witness :
    (seg_write db_init.storage.active_segment [107] [] FLAG_DELETED).1.data =
      db_init.storage.active_segment.data ++
        (if header_len [107] [] + db_init.storage.active_segment.block_written >
           BLOCK_BYTES
         then pad_bytes
           (BLOCK_BYTES - db_init.storage.active_segment.block_written)
         else []) ++ record_buffer [107] [] FLAG_DELETED ∧
    db_read (db_delete db_init [107]) [107] = .ok none ∧
    (∀ k', k' ≠ [107] →
       map_get k' (db_delete db_init [107]).index = map_get k' db_init.index) :=
  delete_absent_key_ok db_init [107] rfl

set_option maxRecDepth 2048 in
/-- C1 (failing case): read-your-writes breaks on the write that fills the
segment.  From a fresh database, a write whose record reaches the 1 GiB cap
reports the segment full and triggers rotation; the locator stored in the
index names the filled segment (`"1"`), but rotation filed that segment in
`old_segments` under the key `"2"`, so the subsequent `read` of the key
fails with "segment not found" instead of returning the value. -/
theorem read_after_rotating_write_errors (k v : List Nat)
    (hk : k.length < 2 ^ 64) (hv : v.length < 2 ^ 64)
    (hfull : MAX_SEGMENT_BYTES ≤ header_len k v + k.length + v.length + 4) :
    (seg_write seg_init k v 0).2.is_segment_full = true ∧
    db_read (db_write db_init k v) k = .error "segment not found" := by
  have hhl : header_len k v ≤ 21 := header_len_le hk hv
  have hnp : header_len k v + seg_init.block_written ≤ BLOCK_BYTES := by
    simp only [seg_init, BLOCK_BYTES]
    omega
  have hlen := record_buffer_length k v 0
  have hsw := @seg_write_no_pad seg_init k v 0 hnp
  have hfl : (seg_write seg_init k v 0).2.is_segment_full = true := by
    rw [hsw]
    rw [decide_eq_true_eq]
    simp only [seg_init]
    omega
  refine ⟨hfl, ?_⟩
  rw [db_read]
  simp only [db_write, db_init, dir_write, dir_init, map_insert]
  rw [map_get, if_pos rfl]
  rw [hfl]
  simp only [if_true]
  rw [dir_read_at]
  simp only [rotate_active_segment, map_insert]
  rw [if_neg (by decide : ¬(seg_name 1 = seg_name (1 + 1)))]
  rw [map_get, if_neg (by decide : ¬(seg_name 1 = seg_name (1 + 1)))]
  rfl

theorem read_after_rotating_write_errors_witness :
    (seg_write seg_init [107] (List.replicate (2 ^ 30) 0) 0).2.is_segment_full
      = true ∧
    db_read (db_write db_init [107] (List.replicate (2 ^ 30) 0)) [107] =
      .error "segment not found" :=
  read_after_rotating_write_errors [107] (List.replicate (2 ^ 30) 0)
    (by decide)
    (by rw [List.length_replicate]; norm_num)
    (by
      rw [List.length_replicate]
      have h107 : ([107] : List Nat).length = 1 := rfl
      simp only [MAX_SEGMENT_BYTES, h107]
      omega)

end Bitcask

